import Mathlib

/-!
Verification development for the agent-squad repository (TypeScript sources).

The definitions below are a shallow embedding of the repository's source
files into Lean:

* the Anthropic/OpenAI classifier processRequest functions
  (retry loop, result construction),
* the GrokAgent / PerplexityAgent response handling,
* the PineconeStorage chat-storage operations
  (saveChatMessage, fetchChat, storeMessage, deactivateOldMessages,
  getRelevantContext),
* the LLMUtils.splitContent chunking function,
* the replaceplaceholders prompt-template renderer shared by the
  Bedrock/Grok/Perplexity agents.

JavaScript strings are modelled as Lean String or List Char as convenient;
external services (Anthropic/OpenAI/Pinecone/S3 backends, uuid generation,
LLM summarisation) are modelled as explicit parameters or as a deterministic
fresh-nonce supply, as documented at each definition.
-/

/- ------------------------------------------------------------------ -/
/- Classifier retry loop (AnthropicClassifier.processRequest).        -/
/- ------------------------------------------------------------------ -/

/-- Outcome of one attempt of the underlying model call
(this.client.messages.create plus the in-try validation code): either a
successfully built classifier value, an error whose error.type is
"overloaded_error", or any other error. -/
inductive AttemptOutcome (α : Type) where
  | ok (r : α)
  | overloaded
  | otherError
deriving DecidableEq

/-- Error propagated out of the classifier's processRequest. -/
inductive ClassifierFailure where
  | overloaded
  | other
deriving DecidableEq

/-- Observable trace of one processRequest call: the propagated result,
the number of attempts made (the final value of executionCount), and the
list of wall-clock delays (in ms) awaited between consecutive attempts. -/
structure RetryTrace (α : Type) where
  result : Except ClassifierFailure α
  attempts : Nat
  delays : List Nat

/-- The while(retry) loop of AnthropicClassifier.processRequest (both the
single-result and the multi-result variant have the identical loop):
executionCount is incremented, the attempt is made; on an
"overloaded_error" with executionCount < 3 the loop awaits
delay(executionCount * 500) and retries, on any other error (or once
executionCount reaches 3) the error is rethrown.  The backend argument
gives the outcome of the n-th attempt (n starting at 1). -/
def anthropicRetryLoop (backend : Nat → AttemptOutcome α) (executionCount : Nat) :
    RetryTrace α :=
  let n := executionCount + 1
  match backend n with
  | .ok r => ⟨.ok r, n, []⟩
  | .otherError => ⟨.error .other, n, []⟩
  | .overloaded =>
    if h : n < 3 then
      let t := anthropicRetryLoop backend n
      ⟨t.result, t.attempts, n * 500 :: t.delays⟩
    else
      ⟨.error .overloaded, n, []⟩
termination_by 3 - executionCount
decreasing_by omega

/-- AnthropicClassifier.processRequest viewed as the retry loop started
with executionCount = 0. -/
def anthropicProcessRequest (backend : Nat → AttemptOutcome α) : RetryTrace α :=
  anthropicRetryLoop backend 0

/-- C1: for every classifier request whose model backend fails with an
"overloaded" error on every attempt, the classifier makes exactly 3
attempts (the retry bound in the source is the literal 3, equal to the
default MAX_RETRIES), with a delay of attempt * 500 ms between
consecutive attempts (500 ms after attempt 1, 1000 ms after attempt 2),
and then propagates the overloaded failure; it never returns a result. -/
theorem claim1_retry_exhaustion (backend : Nat → AttemptOutcome α)
    (h : ∀ n, backend n = .overloaded) :
    anthropicProcessRequest backend =
      ⟨.error .overloaded, 3, [500, 1000]⟩ := by
  unfold anthropicProcessRequest
  unfold anthropicRetryLoop
  simp only [h, Nat.zero_add]
  norm_num
  unfold anthropicRetryLoop
  simp only [h]
  norm_num
  unfold anthropicRetryLoop
  simp only [h]
  norm_num

/-- Witness for claim1_retry_exhaustion at a concrete always-overloaded
backend. -/
theorem claim1_retry_exhaustion_witness :
    anthropicProcessRequest (fun _ => (AttemptOutcome.overloaded : AttemptOutcome Nat)) =
      ⟨.error .overloaded, 3, [500, 1000]⟩ :=
  claim1_retry_exhaustion (fun _ => AttemptOutcome.overloaded) (fun _ => rfl)

/- ------------------------------------------------------------------ -/
/- Agent backend failure handling (PerplexityAgent, GrokAgent).       -/
/- ------------------------------------------------------------------ -/

/-- Message roles (ParticipantRole in types.ts). -/
inductive Role where
  | user
  | assistant
deriving DecidableEq

/-- A conversation message: role and the list of text blocks
(content: [{ text: ... }] is modelled as the list of the text strings). -/
structure ConvMessage where
  role : Role
  content : List String
deriving DecidableEq

/-- Failure of an agent's backend call (HTTP error, outage, or the
malformed-response errors thrown inside the try block). -/
inductive AgentBackendError where
  | outage
  | malformed
deriving DecidableEq

/-- The fixed text PerplexityAgent returns from its catch branch. -/
def perplexityFallbackText : String :=
  "An error occured while connecting to perplexity."

/-- PerplexityAgent.processRequest, abstracted over the outcome of the
axios call plus the response-shape validation performed inside the try
block: on success the assistant message with the model's text is
returned, and the catch branch catches every failure, logs it and
returns a normal assistant message with a fixed error text.  The
function is total: no failure is propagated to the caller. -/
def perplexityProcessRequest (attempt : Except AgentBackendError String) :
    ConvMessage :=
  match attempt with
  | .ok text => ⟨.assistant, [text]⟩
  | .error _ => ⟨.assistant, [perplexityFallbackText]⟩

/-- GrokAgent.handleSingleResponse, abstracted the same way: the catch
branch logs and rethrows, so a backend failure is propagated as an
error. -/
def grokHandleSingleResponse (attempt : Except AgentBackendError String) :
    Except AgentBackendError ConvMessage :=
  match attempt with
  | .ok text => .ok ⟨.assistant, [text]⟩
  | .error e => .error e

/-- C5 counterexample: the claim says every agent propagates a backend
failure and never swallows it into a normal assistant message.
PerplexityAgent violates this: on a backend outage its processRequest
returns a normal assistant message carrying the fixed fallback text
instead of an error. -/
theorem claim5_counterexample :
    perplexityProcessRequest (.error .outage) =
      ⟨.assistant, [perplexityFallbackText]⟩ := rfl

/-- C5 amended: on a backend failure GrokAgent propagates the error to
its caller, while PerplexityAgent catches the failure and returns a
normal assistant message with the fixed text
"An error occured while connecting to perplexity." in its place. -/
theorem claim5_amended_propagation :
    (∀ e, grokHandleSingleResponse (.error e) = .error e) ∧
    (∀ e, perplexityProcessRequest (.error e) =
      ⟨.assistant, [perplexityFallbackText]⟩) :=
  ⟨fun _ => rfl, fun _ => rfl⟩

/- ------------------------------------------------------------------ -/
/- Classifier result construction (Anthropic and OpenAI classifiers). -/
/- ------------------------------------------------------------------ -/

/-- An agent as seen by the classifier: its registry id, its description
and the optional s3details string ("bucket##fileId") used to refresh the
description from S3. -/
structure AgentInfo where
  id : String
  description : String
  s3details : Option String
deriving DecidableEq

/-- Modelled from the spec: getAgentById (defined on the Classifier base
class, which is not among the given source files) resolves the model's
chosen agent identifier against the live registry via an
agentId to AgentDescriptor lookup, returning null when the identifier
does not match any registered agent. -/
def getAgentById (registry : List (String × AgentInfo)) (agentId : String) :
    Option AgentInfo :=
  (registry.find? (fun p => p.1 == agentId)).map (fun p => p.2)

/-- JavaScript String.prototype.indexOf on the pattern, from index i. -/
def strIndexOfAux (pat : List Char) : Nat → List Char → Int
  | i, l =>
    if pat.isPrefixOf l then (i : Int)
    else
      match l with
      | [] => -1
      | _ :: t => strIndexOfAux pat (i + 1) t

/-- JavaScript s.indexOf(pat): index of the first occurrence of pat in
s, or -1 when absent. -/
def strIndexOf (s pat : String) : Int :=
  strIndexOfAux pat.toList 0 s.toList

/-- The float value produced by parseFloat on the model-reported
confidence: a genuine number when the field is present (parseFloat of
the decimal rendering of a JSON number gives that number back), and NaN
when the field is absent (parseFloat(undefined) is NaN). -/
inductive ConfValue where
  | nan
  | val (q : Rat)
deriving DecidableEq

/-- parseFloat applied to an optional JSON number (the confidence field
of a tool input). -/
def parseFloatJs : Option Rat → ConfValue
  | none => .nan
  | some q => .val q

/-- ClassifierResult as constructed by the classifiers: the resolved
agent (null when the identifier matched nothing) and the parseFloat-ed
confidence.  The modelStats bookkeeping carries no classified content
and is omitted. -/
structure ClassifierResultM where
  selectedAgent : Option AgentInfo
  confidence : ConfValue
deriving DecidableEq

/-- One entry of the analyzePrompt tool input: the fields required by
the declared tool schema (userinput, selected_agent, confidence).  The
confidence is kept optional to model JSON field absence. -/
structure AgentToolEntry where
  userinput : String
  selected_agent : String
  confidence : Option Rat
deriving DecidableEq

/-- The multi-result analyzePrompt tool input: an agents array, plus the
top-level confidence field, which the declared schema does not contain
(only agents is required at the top level), hence normally absent. -/
structure MultiToolInput where
  agents : List AgentToolEntry
  confidence : Option Rat
deriving DecidableEq

/-- Shared agent-resolution step of the classifier result loops: look
the chosen identifier up in the registry; when a registered agent is
found and its s3details contains "##" at a positive index, refresh its
description from S3 (fetchDescription, modelled by the fetchDesc
parameter since it performs network I/O; its failure is propagated). -/
def resolveAgent (fetchDesc : String → String → Except String String)
    (registry : List (String × AgentInfo)) (agentId : String) :
    Except String (Option AgentInfo) := do
  match getAgentById registry agentId with
  | none => pure none
  | some agent =>
    match agent.s3details with
    | none => pure (some agent)
    | some s3 =>
      if 0 < strIndexOf s3 "##" then do
        let parts := s3.splitOn "##"
        let bucket := parts.headD ""
        let fileId := (parts.drop 1).headD ""
        let description ← fetchDesc bucket fileId
        pure (some { agent with description := description })
      else
        pure (some agent)

/-- Result construction of the single-result AnthropicClassifier
processRequest, after the tool-use block has been located and its input
validated: selectedAgent is the registry lookup of
toolUse.input.selected_agent and confidence is
parseFloat(toolUse.input.confidence). -/
def anthropicBuildResult (fetchDesc : String → String → Except String String)
    (registry : List (String × AgentInfo)) (input : AgentToolEntry) :
    Except String ClassifierResultM := do
  let sel ← resolveAgent fetchDesc registry input.selected_agent
  pure ⟨sel, parseFloatJs input.confidence⟩

/-- Result loop of the multi-result AnthropicClassifier processRequest:
one ClassifierResult per entry of input.agents, each carrying
parseFloat(agent.confidence) of that same entry. -/
def anthropicMultiResults (fetchDesc : String → String → Except String String)
    (registry : List (String × AgentInfo)) (input : MultiToolInput) :
    Except String (List ClassifierResultM) :=
  input.agents.mapM (fun a => do
    let sel ← resolveAgent fetchDesc registry a.selected_agent
    pure ⟨sel, parseFloatJs a.confidence⟩)

/-- Result loop of OpenAIClassifier.processRequest: one ClassifierResult
per entry of toolInput.agents, but the confidence written into every
result is parseFloat(toolInput.confidence) - the TOP-LEVEL confidence
field of the tool input, not the entry's own confidence. -/
def openAIBuildResults (fetchDesc : String → String → Except String String)
    (registry : List (String × AgentInfo)) (input : MultiToolInput) :
    Except String (List ClassifierResultM) :=
  input.agents.mapM (fun a => do
    let sel ← resolveAgent fetchDesc registry a.selected_agent
    pure ⟨sel, parseFloatJs input.confidence⟩)

/-- C4: when the model's chosen agent identifier matches no registered
agent, the classifier result is constructed with selectedAgent = null
and the construction succeeds (no exception is raised because of the
unmatched identifier), in the single-result Anthropic variant and in the
OpenAI result loop alike. -/
theorem claim4_unmatched_agent_is_null
    (fetchDesc : String → String → Except String String)
    (registry : List (String × AgentInfo)) (input : AgentToolEntry)
    (topConf : Option Rat)
    (h : getAgentById registry input.selected_agent = none) :
    anthropicBuildResult fetchDesc registry input =
      .ok ⟨none, parseFloatJs input.confidence⟩ ∧
    openAIBuildResults fetchDesc registry ⟨[input], topConf⟩ =
      .ok [⟨none, parseFloatJs topConf⟩] := by
  constructor
  · simp [anthropicBuildResult, resolveAgent, h, pure, Except.pure,
      Bind.bind, Except.bind]
  · simp [openAIBuildResults, List.mapM, List.mapM.loop, resolveAgent, h,
      pure, Except.pure, Except.map, Bind.bind, Except.bind]

/-- Witness for claim4_unmatched_agent_is_null: a registry holding only
a tech agent, and a tool input selecting the unregistered id billing. -/
theorem claim4_unmatched_agent_is_null_witness :
    getAgentById [("tech", ⟨"tech", "Tech Agent", none⟩)] "billing" = none ∧
    (anthropicBuildResult (fun _ _ => .ok "")
        [("tech", ⟨"tech", "Tech Agent", none⟩)] ⟨"input", "billing", some 1⟩ =
      .ok ⟨none, parseFloatJs (some 1)⟩ ∧
    openAIBuildResults (fun _ _ => .ok "")
        [("tech", ⟨"tech", "Tech Agent", none⟩)] ⟨[⟨"input", "billing", some 1⟩], none⟩ =
      .ok [⟨none, parseFloatJs none⟩]) :=
  ⟨by decide,
   claim4_unmatched_agent_is_null (fun _ _ => .ok "")
     [("tech", ⟨"tech", "Tech Agent", none⟩)] ⟨"input", "billing", some 1⟩ none
     (by decide)⟩

/-- C9 evaluation at the failing input: the model reports confidence
9/10 for the tech agent inside the agents array (the only place the
declared tool schema puts a confidence).  The Anthropic multi-result
loop returns that agent's own confidence, but the OpenAI loop reads the
absent top-level toolInput.confidence, so every result it builds carries
NaN instead of the reported 9/10. -/
theorem claim9_openai_confidence_eval :
    anthropicMultiResults (fun _ _ => .ok "")
        [("tech", ⟨"tech", "Tech Agent", none⟩)]
        ⟨[⟨"my laptop", "tech", some (9 / 10)⟩], none⟩ =
      .ok [⟨some ⟨"tech", "Tech Agent", none⟩, .val (9 / 10)⟩] ∧
    openAIBuildResults (fun _ _ => .ok "")
        [("tech", ⟨"tech", "Tech Agent", none⟩)]
        ⟨[⟨"my laptop", "tech", some (9 / 10)⟩], none⟩ =
      .ok [⟨some ⟨"tech", "Tech Agent", none⟩, .nan⟩] := by
  constructor <;> rfl

/- ------------------------------------------------------------------ -/
/- PineconeStorage: chat storage over a vector index.                 -/
/- ------------------------------------------------------------------ -/

/-- Metadata stored with each Pinecone record by storeMessage /
createContextSummary (the fields the storage logic reads back:
contextId, userId, content, messageType, timestamp, messageIndex,
isActive and the summary marker written as metadata type: 'summary'). -/
structure PineconeMeta where
  contextId : String
  userId : String
  content : String
  isUserMessage : Bool
  timestamp : Nat
  messageIndex : Int
  isActive : Bool
  isSummary : Bool
deriving DecidableEq

/-- One record of the Pinecone index.  Record ids produced by
generatePineconeId are a context prefix plus an 8-character uuid
segment; the uuid draw is modelled as a Nat nonce taken from a
deterministic fresh-nonce counter (distinct draws give distinct
nonces), so an id is a (prefix, nonce) pair.  Embedding vectors carry
no information the storage logic reads back and are omitted. -/
structure PineconeRecord where
  id : String × Nat
  meta : PineconeMeta
deriving DecidableEq

/-- The Pinecone index, as the list of its records in insertion order. -/
abbrev PineconeIndex := List PineconeRecord

/-- Pinecone upsert of a single record: overwrite the record with the
same id when it exists, append otherwise. -/
def upsertRecord (idx : PineconeIndex) (r : PineconeRecord) : PineconeIndex :=
  if idx.any (fun q => q.id == r.id) then
    idx.map (fun q => if q.id == r.id then r else q)
  else idx ++ [r]

/-- The filtered zero-vector query used by getRecentMessages and
getContextSummary: all records of the context with isActive true, up to
topK.  A zero query vector gives every record the same similarity
score, so Pinecone's result order is unspecified; it is modelled here
as the index's insertion order, which for records written by
storeMessage coincides with arrival (chronological) order.  In
particular the result is NOT sorted by recency. -/
def queryActive (idx : PineconeIndex) (contextId : String) (topK : Nat) :
    List PineconeRecord :=
  (idx.filter (fun r => r.meta.contextId == contextId && r.meta.isActive)).take topK

/-- Splitter for the JavaScript sessionId.split("#") call, character by
character (mirrors String.prototype.split with a one-character
separator). -/
def splitOnHashAux (acc : List Char) : List Char → List (List Char)
  | [] => [acc.reverse]
  | c :: rest =>
    if c = '#' then acc.reverse :: splitOnHashAux [] rest
    else splitOnHashAux (c :: acc) rest

/-- JavaScript s.split("#"). -/
def jsSplitHash (s : String) : List String :=
  (splitOnHashAux [] s.toList).map (fun l => ⟨l⟩)

/-- PineconeStorage.parseSessionId: split the session id on '#' into
(channelId, threadTs) when it has exactly two parts, otherwise use the
session id for both. -/
def parseSessionId (sessionId : String) : String × String :=
  let parts := jsSplitHash sessionId
  if parts.length == 2 then (parts.headD "", (parts.drop 1).headD "")
  else (sessionId, sessionId)

/-- PineconeStorage.formContextId. -/
def formContextId (userId channelId threadTs : String) : String :=
  if userId == channelId then "dm_" ++ userId
  else "channel_" ++ channelId ++ "_thread_" ++ threadTs

/-- The PineconeChatMessage built by saveChatMessage (the metadata
fields the storage logic reads; agentId/sessionId ride along in
metadata and are never read back by the storage logic). -/
structure PineconeChatMessage where
  id : String × Nat
  userId : String
  channelId : String
  threadTs : String
  content : String
  timestamp : Nat
  isUserMessage : Bool
  isDM : Bool
deriving DecidableEq

/-- PineconeStorage.generateContextId. -/
def generateContextId (m : PineconeChatMessage) : String :=
  if m.isDM then "dm_" ++ m.userId
  else "channel_" ++ m.channelId ++ "_thread_" ++ m.threadTs

/-- PineconeStorage.getRecentMessages: the filtered zero-vector query
with the given limit (see queryActive for the order caveat). -/
def getRecentMessages (idx : PineconeIndex) (contextId : String) (limit : Nat) :
    List PineconeRecord :=
  queryActive idx contextId limit

/-- Mark one record inactive (the metadata rewrite performed by the
upsert loop of deactivateOldMessages). -/
def deactivateRecord (r : PineconeRecord) : PineconeRecord :=
  ⟨r.id, { r.meta with isActive := false }⟩

/-- PineconeStorage.deactivateOldMessages: fetch up to 1000 active
records of the context, and when more than keepRecent are present,
deactivate every record after the first keepRecent of the query result
(the query result is not sorted by timestamp, so 'old' here means
'late in the query order', not oldest). -/
def deactivateOldMessages (idx : PineconeIndex) (contextId : String)
    (keepRecent : Nat) : PineconeIndex :=
  let messages := getRecentMessages idx contextId 1000
  if messages.length ≤ keepRecent then idx
  else
    (messages.drop keepRecent).foldl
      (fun acc r => upsertRecord acc (deactivateRecord r)) idx

/-- Storage state: the index plus the fresh-nonce counter modelling the
uuid draws. -/
structure PineconeState where
  index : PineconeIndex
  nonce : Nat
deriving DecidableEq

/-- PineconeStorage.createContextSummary: collect up to 50 recent
active records; when at least 10 are present, store a summary record
(userId system, messageType bot, messageIndex -1, metadata type
summary) whose content is the LLM summary of the conversation text.
The LLM call is external and its output is the summaryText parameter. -/
def createContextSummary (st : PineconeState) (summaryText : String)
    (contextId : String) (now : Nat) : PineconeState :=
  let messages := getRecentMessages st.index contextId 50
  if messages.length < 10 then st
  else
    ⟨upsertRecord st.index
      ⟨("uuid", st.nonce), ⟨contextId, "system", summaryText, false, now, -1, true, true⟩⟩,
     st.nonce + 1⟩

/-- PineconeStorage.storeMessage: compute the context id, read the
current active count as messageIndex, upsert the new record with
isActive true, prune the context to maxActiveMessages (100 for a
channel thread, 200 for a DM) via deactivateOldMessages, and on every
50th messageIndex trigger createContextSummary. -/
def storeMessage (st : PineconeState) (summaryText : String)
    (m : PineconeChatMessage) : PineconeState :=
  let contextId := generateContextId m
  let recents := getRecentMessages st.index contextId 1000
  let messageIndex := recents.length
  let idx1 := upsertRecord st.index
    ⟨m.id, ⟨contextId, m.userId, m.content, m.isUserMessage, m.timestamp,
            (messageIndex : Int), true, false⟩⟩
  let maxActiveMessages := if !m.isDM then 100 else 200
  let idx2 := deactivateOldMessages idx1 contextId maxActiveMessages
  if messageIndex > 0 && messageIndex % 50 == 0 then
    createContextSummary ⟨idx2, st.nonce⟩ summaryText contextId m.timestamp
  else ⟨idx2, st.nonce⟩

/-- PineconeStorage.saveChatMessage: build the PineconeChatMessage
(content is newMessage.content[0].text, isDM is userId === sessionId,
the id takes a fresh uuid segment), store it, and return [newMessage].
The now parameter stands for Date.now(). -/
def saveChatMessage (st : PineconeState) (summaryText : String) (now : Nat)
    (userId sessionId agentId : String) (newMessage : ConvMessage) :
    PineconeState × List ConvMessage :=
  let ct := parseSessionId sessionId
  let pid := (formContextId userId ct.1 ct.2, st.nonce)
  let m : PineconeChatMessage :=
    ⟨pid, userId, ct.1, ct.2, newMessage.content.headD "", now,
     newMessage.role == .user, userId == sessionId⟩
  (storeMessage ⟨st.index, st.nonce + 1⟩ summaryText m, [newMessage])

/-- PineconeStorage.fetchChat: regenerate a Pinecone id for the
conversation - including a FRESH uuid segment - and fetch the single
record with that id; when no record carries the id, return the empty
history, otherwise a one-element history rebuilt from the record's
metadata. -/
def fetchChat (st : PineconeState) (userId sessionId : String) :
    PineconeState × List ConvMessage :=
  let ct := parseSessionId sessionId
  let pid := (formContextId userId ct.1 ct.2, st.nonce)
  let st2 : PineconeState := ⟨st.index, st.nonce + 1⟩
  match st.index.find? (fun r => r.id == pid) with
  | none => (st2, [])
  | some r =>
    (st2, [⟨if r.meta.isUserMessage then .user else .assistant, [r.meta.content]⟩])

/-- C6: for a (userId, sessionId) pair for which no conversation record
exists in the index (in particular for one never stored), fetchChat
returns the empty history and raises no error. -/
theorem claim6_fetch_empty (st : PineconeState) (userId sessionId : String)
    (h : ∀ r ∈ st.index,
      r.id.1 ≠ formContextId userId (parseSessionId sessionId).1 (parseSessionId sessionId).2) :
    (fetchChat st userId sessionId).2 = [] := by
  unfold fetchChat
  have hnone : st.index.find?
      (fun r => r.id == (formContextId userId (parseSessionId sessionId).1
        (parseSessionId sessionId).2, st.nonce)) = none := by
    rw [List.find?_eq_none]
    intro r hr
    have := h r hr
    simp only [beq_iff_eq, Prod.ext_iff]
    intro hc
    exact this hc.1
  simp only [hnone]

/-- Witness for claim6_fetch_empty: the empty index. -/
theorem claim6_fetch_empty_witness :
    (∀ r ∈ (⟨[], 0⟩ : PineconeState).index,
      r.id.1 ≠ formContextId "u1" (parseSessionId "s1").1 (parseSessionId "s1").2) ∧
    (fetchChat ⟨[], 0⟩ "u1" "s1").2 = [] :=
  ⟨by simp, claim6_fetch_empty ⟨[], 0⟩ "u1" "s1" (by simp)⟩

/-- C3 evaluated at the failing input: starting from the empty store,
saveChatMessage("u1", "s1", "agent1", user "hello") does store a record
with content "hello", yet the immediately following fetchChat for the
same (userId, sessionId) returns the EMPTY history - not a history
ending with the saved message - because fetchChat regenerates the
record id with a fresh uuid segment, which matches nothing. -/
theorem claim3_roundtrip_eval :
    ((saveChatMessage ⟨[], 0⟩ "sum" 5 "u1" "s1" "agent1" ⟨.user, ["hello"]⟩).1.index.map
      (fun r => r.meta.content) = ["hello"]) ∧
    (fetchChat (saveChatMessage ⟨[], 0⟩ "sum" 5 "u1" "s1" "agent1" ⟨.user, ["hello"]⟩).1
      "u1" "s1").2 = [] := by
  constructor <;> rfl

/-- The pre-state for the C2 evaluation: a channel-thread context
holding 100 active records with timestamps 0..99 in arrival order
(exactly what 100 prior saves under (userId u1, sessionId s1) produce),
nonce counter at 100. -/
def claim2PreIndex : PineconeIndex :=
  (List.range 100).map (fun k =>
    ⟨("channel_s1_thread_s1", k),
     ⟨"channel_s1_thread_s1", "u1", "m", true, k, (k : Int), true, false⟩⟩)

/-- The state after one more saveChatMessage (timestamp 100) on the
C2 pre-state. -/
def claim2After : PineconeState :=
  (saveChatMessage ⟨claim2PreIndex, 100⟩ "sum" 100 "u1" "s1" "agent1"
    ⟨.user, ["newest"]⟩).1

set_option maxRecDepth 40000 in
/-- C2 evaluated at the failing input: saving the 101st message into a
channel-thread context triggers trimming (maxActiveMessages = 100), but
the records that remain active are the 100 OLDEST ones (timestamps
0..99): the newly saved newest record (timestamp 100) is the one that
gets deactivated, the opposite of removing the oldest pairs first. -/
theorem claim2_trim_direction_eval :
    ((claim2After.index.filter (fun r => r.meta.isActive && !r.meta.isSummary)).map
      (fun r => r.meta.timestamp) = List.range 100) ∧
    ((claim2After.index.find? (fun r => r.id == ("channel_s1_thread_s1", 100))).map
      (fun r => r.meta.isActive) = some false) := by
  constructor <;> rfl

/-- The keep-first-occurrence deduplication by record id performed in
getRelevantContext (the seen-Set filter). -/
def dedupByIdAux (seen : List (String × Nat)) :
    List PineconeRecord → List PineconeRecord
  | [] => []
  | r :: rest =>
    if r.id ∈ seen then dedupByIdAux seen rest
    else r :: dedupByIdAux (r.id :: seen) rest

/-- Sort key of getRelevantContext: (a.metadata?.timestamp || 0); in
the model the timestamp is always present. -/
def tsKey (r : PineconeRecord) : Nat := r.meta.timestamp

/-- The uniqueMessages.sort((a, b) => ts(a) - ts(b)) step.  JavaScript's
Array.prototype.sort with this comparator produces a stable,
nondecreasing-by-timestamp reordering; it is modelled by stable
insertion sort. -/
def sortByTimestamp (l : List PineconeRecord) : List PineconeRecord :=
  List.insertionSort (fun a b => tsKey a ≤ tsKey b) l

/-- JavaScript arr.slice(-n) for n > 0: the last n elements (all of
them when fewer are present). -/
def sliceLast (n : Nat) (l : List α) : List α := l.drop (l.length - n)

/-- The pure tail of PineconeStorage.getRelevantContext (lines after
the two queries): combine the similarity matches with the recent
fallback messages, deduplicate by id keeping the first occurrence,
sort by timestamp, and return the last maxResults entries. -/
def getRelevantContextCore (sim recent : List PineconeRecord)
    (maxResults : Nat) : List PineconeRecord :=
  sliceLast maxResults (sortByTimestamp (dedupByIdAux [] (sim ++ recent)))

/-- PineconeStorage.getRelevantContext: the similarity query response
(an arbitrary list of records chosen by the vector backend for the
embedded query, topK = floor(maxResults * 0.7)) is the sim parameter;
the recent fallback messages come from getRecentMessages with limit
maxResults - sim.length; then the pure combination step. -/
def getRelevantContext (idx : PineconeIndex) (contextId : String)
    (sim : List PineconeRecord) (maxResults : Nat) : List PineconeRecord :=
  let recent := getRecentMessages idx contextId (maxResults - sim.length)
  getRelevantContextCore sim recent maxResults

instance : IsTotal PineconeRecord (fun a b => tsKey a ≤ tsKey b) :=
  ⟨fun a b => Nat.le_total (tsKey a) (tsKey b)⟩

instance : IsTrans PineconeRecord (fun a b => tsKey a ≤ tsKey b) :=
  ⟨fun _ _ _ hab hbc => Nat.le_trans hab hbc⟩

/-- The ids of the result of dedupByIdAux are pairwise distinct, and
none of them is in the seen accumulator. -/
theorem dedupByIdAux_nodup (seen : List (String × Nat))
    (l : List PineconeRecord) :
    ((dedupByIdAux seen l).map (fun r => r.id)).Nodup ∧
      ∀ x ∈ (dedupByIdAux seen l).map (fun r => r.id), x ∉ seen := by
  induction l generalizing seen with
  | nil => simp [dedupByIdAux]
  | cons r rest ih =>
    by_cases h : r.id ∈ seen
    · have := ih seen
      simpa [dedupByIdAux, h] using this
    · have ihr := ih (r.id :: seen)
      simp only [dedupByIdAux, if_neg h, List.map_cons, List.nodup_cons]
      refine ⟨⟨?_, ihr.1⟩, ?_⟩
      · intro hmem
        exact (ihr.2 r.id hmem) (List.mem_cons_self r.id seen)
      · intro x hx
        rcases List.mem_cons.mp hx with hx | hx
        · subst hx
          exact h
        · intro hxseen
          exact (ihr.2 x hx) (List.mem_cons_of_mem _ hxseen)

/-- C8: the list returned by getRelevantContext (the similarity
augmented retrieval backing fetchAllChats) holds at most maxResults
messages, holds at most one message per record id, and is ordered by
nondecreasing timestamp. -/
theorem claim8_relevant_context_shape (idx : PineconeIndex)
    (contextId : String) (sim : List PineconeRecord) (maxResults : Nat)
    (hpos : 0 < maxResults) :
    (getRelevantContext idx contextId sim maxResults).length ≤ maxResults ∧
    ((getRelevantContext idx contextId sim maxResults).map (fun r => r.id)).Nodup ∧
    (getRelevantContext idx contextId sim maxResults).Sorted
      (fun a b => tsKey a ≤ tsKey b) := by
  have _ := hpos
  set combined :=
    dedupByIdAux [] (sim ++ getRecentMessages idx contextId (maxResults - sim.length))
    with hcombined
  have hsorted : (sortByTimestamp combined).Sorted (fun a b => tsKey a ≤ tsKey b) :=
    List.sorted_insertionSort _ _
  have hperm : List.Perm (sortByTimestamp combined) combined :=
    List.perm_insertionSort _ _
  have hsub : (sliceLast maxResults (sortByTimestamp combined)).Sublist
      (sortByTimestamp combined) := List.drop_sublist _ _
  refine ⟨?_, ?_, ?_⟩
  · show (sliceLast maxResults (sortByTimestamp combined)).length ≤ maxResults
    unfold sliceLast
    rw [List.length_drop]
    omega
  · show ((sliceLast maxResults (sortByTimestamp combined)).map (fun r => r.id)).Nodup
    have hnodup : (combined.map (fun r => r.id)).Nodup :=
      (dedupByIdAux_nodup [] _).1
    have hnodup2 : ((sortByTimestamp combined).map (fun r => r.id)).Nodup :=
      ((hperm.map (fun r => r.id)).nodup_iff).mpr hnodup
    exact (hsub.map (fun r => r.id)).nodup hnodup2
  · exact List.Pairwise.sublist hsub hsorted

/-- Witness for claim8_relevant_context_shape: two similarity matches
and one overlapping recent record over a tiny index, maxResults = 2. -/
theorem claim8_relevant_context_shape_witness :
    (0 < 2) ∧
    ((getRelevantContext
        [⟨("c", 0), ⟨"c", "u", "m0", true, 3, 0, true, false⟩⟩]
        "c"
        [⟨("c", 1), ⟨"c", "u", "m1", true, 7, 1, true, false⟩⟩]
        2).length ≤ 2 ∧
    ((getRelevantContext
        [⟨("c", 0), ⟨"c", "u", "m0", true, 3, 0, true, false⟩⟩]
        "c"
        [⟨("c", 1), ⟨"c", "u", "m1", true, 7, 1, true, false⟩⟩]
        2).map (fun r => r.id)).Nodup ∧
    (getRelevantContext
        [⟨("c", 0), ⟨"c", "u", "m0", true, 3, 0, true, false⟩⟩]
        "c"
        [⟨("c", 1), ⟨"c", "u", "m1", true, 7, 1, true, false⟩⟩]
        2).Sorted (fun a b => tsKey a ≤ tsKey b)) :=
  ⟨by decide,
   claim8_relevant_context_shape
     [⟨("c", 0), ⟨"c", "u", "m0", true, 3, 0, true, false⟩⟩]
     "c"
     [⟨("c", 1), ⟨"c", "u", "m1", true, 7, 1, true, false⟩⟩]
     2 (by decide)⟩

/- ------------------------------------------------------------------ -/
/- Prompt-template rendering (replaceplaceholders, shared verbatim by -/
/- BedrockLLMAgent, GrokAgent and PerplexityAgent).                   -/
/- ------------------------------------------------------------------ -/

/-- A word character in the sense of the JavaScript regex class
(ASCII letters, digits and the underscore). -/
def isWordChar (c : Char) : Bool := c.isAlphanum || c = '_'

/-- A TemplateVariables value: a plain string or an array of strings
(an array is rendered by value.join of a newline). -/
inductive TemplateValue where
  | str (s : List Char)
  | arr (l : List (List Char))

/-- The replacement text for a found variable: arrays are joined into
lines, strings are used as is (String(value) of a string). -/
def templateValueText : TemplateValue → List Char
  | .str s => s
  | .arr l => List.intercalate ['\n'] l

/-- The TemplateVariables mapping. -/
abbrev VarMap := List (List Char × TemplateValue)

/-- The 'key in variables' lookup. -/
def lookupVar (vars : VarMap) (key : List Char) : Option TemplateValue :=
  (vars.find? (fun p => p.1 == key)).map (fun p => p.2)

/-- The matched placeholder as literal text (the match value the
replacer returns when the key is absent). -/
def placeholderText (key : List Char) : List Char :=
  '{' :: '{' :: (key ++ ['}', '}'])

/-- The text a matched placeholder is replaced by: the variable's value
when the key is in the mapping, the matched placeholder itself
otherwise. -/
def replacementFor (vars : VarMap) (key : List Char) : List Char :=
  match lookupVar vars key with
  | some v => templateValueText v
  | none => placeholderText key

/-- The replaceplaceholders method (identical in bedrockLLMAgent.ts,
grokAgent.ts and perplexityAgent.ts): scan the template for matches of
the global regex of two opening braces, one or more word characters and
two closing braces; replace each match by replacementFor of the
captured key; every other character is copied through, and scanning
resumes after each match. -/
def replaceplaceholders (vars : VarMap) : List Char → List Char
  | [] => []
  | '{' :: '{' :: rest =>
    match rest.takeWhile isWordChar, hd : rest.dropWhile isWordChar with
    | k :: ks, '}' :: '}' :: tail =>
      replacementFor vars (k :: ks) ++ replaceplaceholders vars tail
    | _, _ => '{' :: replaceplaceholders vars ('{' :: rest)
  | c :: rest => c :: replaceplaceholders vars rest
termination_by l => l.length
decreasing_by
  · have hle : (rest.dropWhile isWordChar).length ≤ rest.length :=
      (List.dropWhile_sublist isWordChar).length_le
    rw [hd] at hle
    simp only [List.length_cons] at hle ⊢
    omega
  · simp only [List.length_cons]
    omega
  · simp only [List.length_cons]
    omega

/-- Characters other than an opening brace are copied through
unchanged. -/
theorem replaceplaceholders_cons (vars : VarMap) (c : Char) (l : List Char)
    (hc : c ≠ '{') :
    replaceplaceholders vars (c :: l) = c :: replaceplaceholders vars l := by
  rw [replaceplaceholders.eq_def]
  split
  · rename_i heq
    simp at heq
  · rename_i rest heq
    rw [List.cons.injEq] at heq
    exact absurd heq.1 hc
  · rename_i c2 rest2 hguard heq
    rw [List.cons.injEq] at heq
    rw [heq.1, heq.2]

/-- takeWhile over a word-character key stops exactly at the closing
braces. -/
theorem takeWhile_key (k post : List Char) (hw : ∀ c ∈ k, isWordChar c) :
    (k ++ '}' :: '}' :: post).takeWhile isWordChar = k := by
  induction k with
  | nil =>
    have h : isWordChar '}' = false := by decide
    simp [h]
  | cons c kk ih =>
    have hc : isWordChar c := hw c (List.mem_cons_self c kk)
    simp only [List.cons_append, List.takeWhile_cons_of_pos hc]
    rw [ih (fun x hx => hw x (List.mem_cons_of_mem c hx))]

/-- dropWhile over a word-character key lands exactly on the closing
braces. -/
theorem dropWhile_key (k post : List Char) (hw : ∀ c ∈ k, isWordChar c) :
    (k ++ '}' :: '}' :: post).dropWhile isWordChar = '}' :: '}' :: post := by
  induction k with
  | nil =>
    have h : isWordChar '}' = false := by decide
    simp [h]
  | cons c kk ih =>
    have hc : isWordChar c := hw c (List.mem_cons_self c kk)
    simp only [List.cons_append, List.dropWhile_cons_of_pos hc]
    exact ih (fun x hx => hw x (List.mem_cons_of_mem c hx))

/-- A well-formed placeholder at the head of the template is replaced
and scanning continues after it. -/
theorem replaceplaceholders_match (vars : VarMap) (key post : List Char)
    (hne : key ≠ []) (hw : ∀ c ∈ key, isWordChar c) :
    replaceplaceholders vars ('{' :: '{' :: (key ++ '}' :: '}' :: post)) =
      replacementFor vars key ++ replaceplaceholders vars post := by
  obtain ⟨k, ks, rfl⟩ : ∃ a as, key = a :: as := by
    cases key with
    | nil => exact absurd rfl hne
    | cons a as => exact ⟨a, as, rfl⟩
  have ht := takeWhile_key (k :: ks) post hw
  have hdw := dropWhile_key (k :: ks) post hw
  simp only [List.cons_append] at ht hdw
  rw [replaceplaceholders.eq_def]
  split
  · rename_i heq
    simp at heq
  · rename_i rest heq
    have hrest : rest = k :: (ks ++ '}' :: '}' :: post) := by
      injection heq with h1 h2
      injection h2 with h3 h4
      exact h4.symm
    subst hrest
    split
    · rename_i k2 ks2 tail2 hk2 hd2
      rw [ht] at hk2
      rw [hdw] at hd2
      obtain ⟨rfl, rfl⟩ : k2 = k ∧ ks2 = ks := by
        injection hk2 with a b
        exact ⟨a.symm, b.symm⟩
      obtain rfl : tail2 = post := by
        injection hd2 with a b
        injection b with c d
        exact d.symm
      rfl
    · rename_i hguard
      exact (hguard _ _ _ ht hdw).elim
  · rename_i c2 rest2 hguard heq
    injection heq with h1 h2
    exact (hguard _ h1.symm h2.symm).elim

/-- C7: for every template and variable mapping, rendering replaces
each placeholder of two opening braces, a nonempty word-character key
and two closing braces - occurring after a brace-free prefix - by the
variable's value when the key is present in the mapping (array values
joined into lines) and by the placeholder itself, unchanged, when the
key is absent; the surrounding text is copied through and rendering
continues after the placeholder. -/
theorem claim7_placeholder_rendering (vars : VarMap) (pre key post : List Char)
    (hpre : ∀ c ∈ pre, c ≠ '{')
    (hkey : key ≠ [] ∧ ∀ c ∈ key, isWordChar c) :
    replaceplaceholders vars (pre ++ '{' :: '{' :: (key ++ '}' :: '}' :: post)) =
      pre ++ replacementFor vars key ++ replaceplaceholders vars post := by
  induction pre with
  | nil =>
    simpa using replaceplaceholders_match vars key post hkey.1 hkey.2
  | cons c pre ih =>
    have hc : c ≠ '{' := hpre c (List.mem_cons_self c pre)
    rw [List.cons_append, replaceplaceholders_cons vars c _ hc,
      ih (fun x hx => hpre x (List.mem_cons_of_mem c hx))]
    simp

/-- Witness for claim7_placeholder_rendering: template "p{{A}}q" with
the mapping A to the two lines x, y (so the placeholder becomes x
newline y), checked at concrete character lists. -/
theorem claim7_placeholder_rendering_witness :
    ((∀ c ∈ (['p'] : List Char), c ≠ '{') ∧
     (['A'] : List Char) ≠ [] ∧ (∀ c ∈ (['A'] : List Char), isWordChar c)) ∧
    replaceplaceholders [(['A'], .arr [['x'], ['y']])]
        (['p'] ++ '{' :: '{' :: (['A'] ++ '}' :: '}' :: ['q'])) =
      ['p'] ++ replacementFor [(['A'], .arr [['x'], ['y']])] ['A'] ++
        replaceplaceholders [(['A'], .arr [['x'], ['y']])] ['q'] :=
  ⟨⟨by decide, by decide, by decide⟩,
   claim7_placeholder_rendering [(['A'], .arr [['x'], ['y']])] ['p'] ['A'] ['q']
     (by decide) ⟨by decide, by decide⟩⟩

/- ------------------------------------------------------------------ -/
/- LLMUtils.splitContent.                                             -/
/- ------------------------------------------------------------------ -/

/-- UTF-8 byte size of one character (the per-character contribution to
Buffer.byteLength(s, "utf8")). -/
def charUtf8Size (c : Char) : Nat :=
  if c.toNat < 0x80 then 1
  else if c.toNat < 0x800 then 2
  else if c.toNat < 0x10000 then 3
  else 4

/-- Buffer.byteLength(s, "utf8") of a string. -/
def byteLength (s : List Char) : Nat := (s.map charUtf8Size).sum

/-- JavaScript content.split(" "): the list of the maximal
space-separated fragments of the content, empty fragments included
(split of the empty string is one empty fragment). -/
def splitOnSpace : List Char → List (List Char)
  | [] => [[]]
  | c :: rest =>
    if c = ' ' then [] :: splitOnSpace rest
    else
      match splitOnSpace rest with
      | w :: ws => (c :: w) :: ws
      | [] => [[c]]

/-- The joining of chunk texts by single spaces used to state the
reproduction property (the words of consecutive chunks, separated by
one space at each chunk boundary). -/
def joinSpace : List (List Char) → List Char
  | [] => []
  | [w] => w
  | w :: ws => w ++ ' ' :: joinSpace ws

/-- The maxFieldSize field of LLMUtils (3500, below the 4kb DynamoDB
limit). -/
def maxFieldSize : Nat := 3500

/-- The word loop of LLMUtils.splitContent, with the mutable
currentChunk and chunks variables made explicit.  For each word the
candidate chunk is currentChunk plus a separating space plus the word
(just the word when currentChunk is empty); when its byte length
exceeds maxFS, a nonempty currentChunk is flushed and the word starts
the next chunk, while with an empty currentChunk the oversized word
itself is cut: its first maxFS units are pushed as a chunk and the
remainder becomes the currentChunk (word.substring counts UTF-16 code
units; it is modelled by character count here).  A final nonempty
currentChunk is flushed at the end. -/
def splitContentLoop (maxFS : Nat) :
    List (List Char) → List Char → List (List Char) → List (List Char)
  | [], currentChunk, chunks =>
    if currentChunk = [] then chunks else chunks ++ [currentChunk]
  | word :: words, currentChunk, chunks =>
    let testChunk := if currentChunk = [] then word else currentChunk ++ ' ' :: word
    if maxFS < byteLength testChunk then
      if currentChunk = [] then
        splitContentLoop maxFS words (word.drop maxFS) (chunks ++ [word.take maxFS])
      else
        splitContentLoop maxFS words word (chunks ++ [currentChunk])
    else
      splitContentLoop maxFS words testChunk chunks

/-- LLMUtils.splitContent: split the content into words on single
spaces and run the chunking loop with empty initial state. -/
def splitContent (content : List Char) : List (List Char) :=
  splitContentLoop maxFieldSize (splitOnSpace content) [] []

/-- Unfolding equation of splitOnSpace at a cons cell. -/
theorem splitOnSpace_cons (c : Char) (rest : List Char) :
    splitOnSpace (c :: rest) =
      if c = ' ' then [] :: splitOnSpace rest
      else
        match splitOnSpace rest with
        | w :: ws => (c :: w) :: ws
        | [] => [[c]] := by
  rw [splitOnSpace]

/-- Splitting a space-free run of letters gives that run as the only
word. -/
theorem splitOnSpace_replicate_a (n : Nat) :
    splitOnSpace (List.replicate n 'a') = [List.replicate n 'a'] := by
  induction n with
  | zero => rfl
  | succ n ih =>
    rw [List.replicate_succ, splitOnSpace_cons,
      if_neg (by decide : ¬ ('a' : Char) = ' '), ih]

/-- Byte length of a run of the one-byte character a. -/
theorem byteLength_replicate_a (n : Nat) :
    byteLength (List.replicate n 'a') = n := by
  induction n with
  | zero => rfl
  | succ n ih =>
    have h1 : charUtf8Size 'a' = 1 := by decide
    simp only [byteLength, List.replicate_succ, List.map_cons, List.sum_cons, h1]
    simp only [byteLength] at ih
    omega

/-- On a single word longer than maxFS bytes the loop cuts the word:
the first maxFS units become one chunk and the (nonempty) remainder is
flushed as the final chunk. -/
theorem splitContentLoop_single_oversized (maxFS : Nat) (w : List Char)
    (h : maxFS < byteLength w) (h2 : w.drop maxFS ≠ []) :
    splitContentLoop maxFS [w] [] [] = [w.take maxFS, w.drop maxFS] := by
  simp [splitContentLoop, h, h2]

/-- splitContent on a single 7001-byte word: a 3500-unit chunk and a
3501-byte chunk. -/
theorem splitContent_oversized :
    splitContent (List.replicate 7001 'a') =
      [List.replicate 3500 'a', List.replicate 3501 'a'] := by
  unfold splitContent
  rw [splitOnSpace_replicate_a]
  rw [splitContentLoop_single_oversized]
  · rw [show maxFieldSize = 3500 from rfl, List.take_replicate, List.drop_replicate,
      show min 3500 7001 = 3500 from by norm_num, show 7001 - 3500 = 3501 from by norm_num]
  · rw [byteLength_replicate_a]
    norm_num [maxFieldSize]
  · rw [show maxFieldSize = 3500 from rfl, List.drop_replicate, ne_eq,
      List.replicate_eq_nil_iff]
    norm_num

/-- C10 counterexample: on the single 7001-character word of letters a,
splitContent emits a chunk of 3501 UTF-8 bytes, beyond maxFieldSize
(and the space-joined chunks differ from the original content), so the
claim fails at this input. -/
theorem claim10_counterexample :
    ¬ ((∀ ch ∈ splitContent (List.replicate 7001 'a'),
          byteLength ch ≤ maxFieldSize) ∧
       joinSpace (splitContent (List.replicate 7001 'a')) =
         List.replicate 7001 'a') := by
  intro hcl
  have h := hcl.1 (List.replicate 3501 'a')
    (by rw [splitContent_oversized]
        exact List.mem_cons_of_mem _ (List.mem_cons_self _ _))
  rw [byteLength_replicate_a] at h
  norm_num [maxFieldSize] at h

/-- splitOnSpace always produces at least one (possibly empty) word. -/
theorem splitOnSpace_ne_nil (l : List Char) : splitOnSpace l ≠ [] := by
  cases l with
  | nil => simp [splitOnSpace]
  | cons c rest =>
    rw [splitOnSpace_cons]
    split
    · simp
    · split <;> simp

/-- joinSpace of a cons with a nonempty tail inserts one space. -/
theorem joinSpace_cons (w : List Char) (ws : List (List Char)) (h : ws ≠ []) :
    joinSpace (w :: ws) = w ++ ' ' :: joinSpace ws := by
  cases ws with
  | nil => exact absurd rfl h
  | cons a as => rfl

/-- joinSpace is a left inverse of splitOnSpace. -/
theorem joinSpace_splitOnSpace (l : List Char) :
    joinSpace (splitOnSpace l) = l := by
  induction l with
  | nil => rfl
  | cons c rest ih =>
    rw [splitOnSpace_cons]
    by_cases hc : c = ' '
    · subst hc
      rw [if_pos rfl, joinSpace_cons _ _ (splitOnSpace_ne_nil rest), ih]
      rfl
    · rw [if_neg hc]
      cases hs : splitOnSpace rest with
      | nil => exact absurd hs (splitOnSpace_ne_nil rest)
      | cons w ws =>
        rw [hs] at ih
        cases ws with
        | nil =>
          simp only [joinSpace] at ih ⊢
          rw [ih]
        | cons a as =>
          rw [joinSpace_cons w (a :: as) (by simp)] at ih
          rw [joinSpace_cons (c :: w) (a :: as) (by simp), List.cons_append, ih]

/-- Unfolding equation of the loop with no words left. -/
theorem splitContentLoop_nilWords (maxFS : Nat) (cc : List Char)
    (chunks : List (List Char)) :
    splitContentLoop maxFS [] cc chunks =
      if cc = [] then chunks else chunks ++ [cc] := by
  rw [splitContentLoop]

/-- Unfolding equation of the loop at a word with empty currentChunk. -/
theorem splitContentLoop_consNilCC (maxFS : Nat) (w : List Char)
    (ws : List (List Char)) (chunks : List (List Char)) :
    splitContentLoop maxFS (w :: ws) [] chunks =
      if maxFS < byteLength w then
        splitContentLoop maxFS ws (w.drop maxFS) (chunks ++ [w.take maxFS])
      else splitContentLoop maxFS ws w chunks := by
  simp [splitContentLoop]

/-- Unfolding equation of the loop at a word with nonempty
currentChunk. -/
theorem splitContentLoop_consCC (maxFS : Nat) (w : List Char)
    (ws : List (List Char)) (cc : List Char) (chunks : List (List Char))
    (hcc : cc ≠ []) :
    splitContentLoop maxFS (w :: ws) cc chunks =
      if maxFS < byteLength (cc ++ ' ' :: w) then
        splitContentLoop maxFS ws w (chunks ++ [cc])
      else splitContentLoop maxFS ws (cc ++ ' ' :: w) chunks := by
  simp [splitContentLoop, hcc]

/-- The chunks accumulator of the loop is just prepended to the
result. -/
theorem splitContentLoop_append (maxFS : Nat) :
    ∀ (words : List (List Char)) (cc : List Char) (chunks : List (List Char)),
      splitContentLoop maxFS words cc chunks =
        chunks ++ splitContentLoop maxFS words cc []
  | [], cc, chunks => by
    by_cases h : cc = [] <;> simp [splitContentLoop_nilWords, h]
  | w :: ws, cc, chunks => by
    by_cases hcc : cc = []
    · subst hcc
      rw [splitContentLoop_consNilCC, splitContentLoop_consNilCC]
      by_cases hb : maxFS < byteLength w
      · rw [if_pos hb, if_pos hb,
          splitContentLoop_append maxFS ws (w.drop maxFS) (chunks ++ [w.take maxFS]),
          splitContentLoop_append maxFS ws (w.drop maxFS) ([] ++ [w.take maxFS])]
        simp
      · rw [if_neg hb, if_neg hb,
          splitContentLoop_append maxFS ws w chunks]
    · rw [splitContentLoop_consCC maxFS w ws cc chunks hcc,
        splitContentLoop_consCC maxFS w ws cc [] hcc]
      by_cases hb : maxFS < byteLength (cc ++ ' ' :: w)
      · rw [if_pos hb, if_pos hb,
          splitContentLoop_append maxFS ws w (chunks ++ [cc]),
          splitContentLoop_append maxFS ws w ([] ++ [cc])]
        simp
      · rw [if_neg hb, if_neg hb,
          splitContentLoop_append maxFS ws (cc ++ ' ' :: w) chunks]

/-- The loop never returns an empty chunk list once the currentChunk or
the accumulator is nonempty. -/
theorem splitContentLoop_ne_nil (maxFS : Nat) :
    ∀ (words : List (List Char)) (cc : List Char) (chunks : List (List Char)),
      (cc ≠ [] ∨ chunks ≠ []) →
      splitContentLoop maxFS words cc chunks ≠ []
  | [], cc, chunks, h => by
    rw [splitContentLoop_nilWords]
    rcases h with h | h
    · rw [if_neg h]
      simp
    · split <;> simp [h]
  | w :: ws, cc, chunks, h => by
    by_cases hcc : cc = []
    · subst hcc
      rw [splitContentLoop_consNilCC]
      split
      · exact splitContentLoop_ne_nil maxFS ws _ _ (Or.inr (by simp))
      · exact splitContentLoop_ne_nil maxFS ws w chunks
          (Or.inr (h.resolve_left (fun hh => hh rfl)))
    · rw [splitContentLoop_consCC maxFS w ws cc chunks hcc]
      split
      · exact splitContentLoop_ne_nil maxFS ws w _ (Or.inr (by simp))
      · exact splitContentLoop_ne_nil maxFS ws _ chunks (Or.inl (by simp))

/-- Gluing a space-joined pair at the head of joinSpace. -/
theorem joinSpace_glue (cc w : List Char) (ws : List (List Char)) :
    joinSpace ((cc ++ ' ' :: w) :: ws) = joinSpace (cc :: w :: ws) := by
  cases ws with
  | nil =>
    rw [joinSpace_cons cc [w] (by simp)]
    rfl
  | cons a as =>
    rw [joinSpace_cons (cc ++ ' ' :: w) (a :: as) (by simp),
      joinSpace_cons cc (w :: a :: as) (by simp),
      joinSpace_cons w (a :: as) (by simp)]
    simp

/-- When all remaining words are nonempty and fit in maxFS bytes, the
loop only regroups them: joining its chunks with single spaces gives
back the space-joined remaining input. -/
theorem splitContentLoop_join (maxFS : Nat) :
    ∀ (words : List (List Char)) (cc : List Char),
      (∀ w ∈ words, w ≠ [] ∧ byteLength w ≤ maxFS) → cc ≠ [] →
      joinSpace (splitContentLoop maxFS words cc []) = joinSpace (cc :: words)
  | [], cc, _, hcc => by
    rw [splitContentLoop_nilWords, if_neg hcc]
    rfl
  | w :: ws, cc, hw, hcc => by
    have hwne : w ≠ [] := (hw w (List.mem_cons_self _ _)).1
    have hws : ∀ x ∈ ws, x ≠ [] ∧ byteLength x ≤ maxFS :=
      fun x hx => hw x (List.mem_cons_of_mem _ hx)
    rw [splitContentLoop_consCC maxFS w ws cc [] hcc]
    by_cases hb : maxFS < byteLength (cc ++ ' ' :: w)
    · rw [if_pos hb,
        splitContentLoop_append maxFS ws w ([] ++ [cc])]
      have hL : splitContentLoop maxFS ws w [] ≠ [] :=
        splitContentLoop_ne_nil maxFS ws w [] (Or.inl hwne)
      rw [show ([] ++ [cc] : List (List Char)) ++ splitContentLoop maxFS ws w [] =
        cc :: splitContentLoop maxFS ws w [] from by simp]
      rw [joinSpace_cons cc _ hL,
        splitContentLoop_join maxFS ws w hws hwne,
        joinSpace_cons cc (w :: ws) (by simp)]
    · rw [if_neg hb,
        splitContentLoop_join maxFS ws (cc ++ ' ' :: w) hws (by simp),
        joinSpace_glue]

/-- When all words fit in maxFS bytes, every chunk the loop emits fits
in maxFS bytes. -/
theorem splitContentLoop_bound (maxFS : Nat) :
    ∀ (words : List (List Char)) (cc : List Char) (chunks : List (List Char)),
      (∀ w ∈ words, byteLength w ≤ maxFS) →
      byteLength cc ≤ maxFS →
      (∀ ch ∈ chunks, byteLength ch ≤ maxFS) →
      ∀ ch ∈ splitContentLoop maxFS words cc chunks, byteLength ch ≤ maxFS
  | [], cc, chunks, _, hcc, hch => by
    intro ch hmem
    rw [splitContentLoop_nilWords] at hmem
    split at hmem
    · exact hch ch hmem
    · rcases List.mem_append.mp hmem with h | h
      · exact hch ch h
      · rw [List.mem_singleton.mp h]
        exact hcc
  | w :: ws, cc, chunks, hw, hcc, hch => by
    have hwb : byteLength w ≤ maxFS := hw w (List.mem_cons_self _ _)
    have hws : ∀ x ∈ ws, byteLength x ≤ maxFS :=
      fun x hx => hw x (List.mem_cons_of_mem _ hx)
    intro ch hmem
    by_cases hcc0 : cc = []
    · subst hcc0
      rw [splitContentLoop_consNilCC, if_neg (not_lt.mpr hwb)] at hmem
      exact splitContentLoop_bound maxFS ws w chunks hws hwb hch ch hmem
    · rw [splitContentLoop_consCC maxFS w ws cc chunks hcc0] at hmem
      by_cases hb : maxFS < byteLength (cc ++ ' ' :: w)
      · rw [if_pos hb] at hmem
        refine splitContentLoop_bound maxFS ws w (chunks ++ [cc]) hws hwb ?_ ch hmem
        intro x hx
        rcases List.mem_append.mp hx with h | h
        · exact hch x h
        · rw [List.mem_singleton.mp h]
          exact hcc
      · rw [if_neg hb] at hmem
        exact splitContentLoop_bound maxFS ws (cc ++ ' ' :: w) chunks hws
          (le_of_not_lt hb) hch ch hmem

/-- C10 amended: for content whose space-separated words are all
nonempty (no leading, trailing or doubled spaces at a chunk-reset
point) and at most maxFieldSize UTF-8 bytes each, every chunk returned
by splitContent has UTF-8 byte length at most maxFieldSize (3500), and
joining the chunks with single spaces at chunk boundaries reproduces
the original content, with the words in order. -/
theorem claim10_amended (content : List Char)
    (hw : ∀ w ∈ splitOnSpace content, w ≠ [] ∧ byteLength w ≤ maxFieldSize) :
    (∀ ch ∈ splitContent content, byteLength ch ≤ maxFieldSize) ∧
    joinSpace (splitContent content) = content := by
  constructor
  · intro ch hmem
    exact splitContentLoop_bound maxFieldSize (splitOnSpace content) [] []
      (fun w hw2 => (hw w hw2).2) (by simp [byteLength]) (by simp) ch hmem
  · obtain ⟨w, ws, hsplit⟩ : ∃ a as, splitOnSpace content = a :: as := by
      cases h : splitOnSpace content with
      | nil => exact absurd h (splitOnSpace_ne_nil content)
      | cons a as => exact ⟨a, as, rfl⟩
    have hwmem : w ∈ splitOnSpace content := by
      rw [hsplit]
      exact List.mem_cons_self _ _
    have hwne : w ≠ [] := (hw w hwmem).1
    have hwb : byteLength w ≤ maxFieldSize := (hw w hwmem).2
    have hws : ∀ x ∈ ws, x ≠ [] ∧ byteLength x ≤ maxFieldSize := by
      intro x hx
      refine hw x ?_
      rw [hsplit]
      exact List.mem_cons_of_mem _ hx
    unfold splitContent
    rw [hsplit, splitContentLoop_consNilCC, if_neg (not_lt.mpr hwb),
      splitContentLoop_join maxFieldSize ws w hws hwne, ← hsplit,
      joinSpace_splitOnSpace]

/-- Witness for claim10_amended: the two-word content hi yo. -/
theorem claim10_amended_witness :
    (∀ w ∈ splitOnSpace ['h', 'i', ' ', 'y', 'o'],
      w ≠ [] ∧ byteLength w ≤ maxFieldSize) ∧
    ((∀ ch ∈ splitContent ['h', 'i', ' ', 'y', 'o'],
        byteLength ch ≤ maxFieldSize) ∧
    joinSpace (splitContent ['h', 'i', ' ', 'y', 'o']) =
      ['h', 'i', ' ', 'y', 'o']) :=
  ⟨by decide, claim10_amended ['h', 'i', ' ', 'y', 'o'] (by decide)⟩
